import Mathlib

/-!
# Verification of the HMA multi-table synthesizer core

A shallow embedding of `src/sdgx/models/statistics/multi_tables/hma.py`
(class `HMA`), with theorems checking the natural-language specification
against the code.  DataFrame cells are modelled as nullable rationals
(`Option ℚ`, `none` is NaN); fallible per-group fits return `Except`.
-/

set_option maxHeartbeats 1000000

namespace HMA

/-! ## Python / numpy / pandas primitives -/

/-- Python `int()` applied to a numeric value: truncation toward zero. -/
def pyInt (q : ℚ) : ℤ := if 0 ≤ q then ⌊q⌋ else ⌈q⌉

/-- Python `round()` to an integer: round half to even (banker's rounding). -/
def pyRound (q : ℚ) : ℤ :=
  let f := ⌊q⌋
  let r := q - (f : ℚ)
  if r < 1/2 then f
  else if 1/2 < r then f + 1
  else if f % 2 = 0 then f else f + 1

/-- `np.clip(x, lo, hi) = min (max x lo) hi`. -/
def npClip (x lo hi : ℚ) : ℚ := min (max x lo) hi

/-- Python `str.endswith`. -/
def pyEndsWith (s suffixStr : String) : Bool := suffixStr.data.isSuffixOf s.data

/-- Python `str.startswith`. -/
def pyStartsWith (s startStr : String) : Bool := startStr.data.isPrefixOf s.data

/-- pandas `Series.unique`: the distinct values in order of first appearance. -/
def uniqueFirst {α : Type} [DecidableEq α] : List α → List α
  | [] => []
  | x :: xs => x :: uniqueFirst (xs.filter (· ≠ x))
  termination_by l => l.length
  decreasing_by
    simp only [List.length_cons]
    exact Nat.lt_succ_of_le (List.length_filter_le _ _)

/-- pandas `Series.mean`: mean of the non-null entries, `none` when every
entry is null (NaN entries are skipped). -/
def seriesMean (xs : List (Option ℚ)) : Option ℚ :=
  let vs := xs.filterMap id
  if vs.isEmpty then none else some (vs.sum / vs.length)

/-- Maximum of a list of rationals (`0` for the empty list; only used on
nonempty columns). -/
def listMax : List ℚ → ℚ
  | [] => 0
  | x :: xs => xs.foldl max x

/-- pandas `Series.idxmax` on a default integer index: position of the first
occurrence of the maximum. -/
def listIdxmax : List ℚ → ℕ
  | [] => 0
  | [_] => 0
  | x :: y :: xs => if x < listMax (y :: xs) then listIdxmax (y :: xs) + 1 else 0

/-! ## Tabular data model -/

/-- A pandas `DataFrame` on a default integer index: named columns and rows of
nullable numeric cells. -/
structure DFrame where
  cols : List String
  rows : List (List (Option ℚ))
deriving Repr, DecidableEq, Inhabited

/-- Value of column `c` in a row `r` belonging to a frame with columns `cs`
(NaN when the column is absent). -/
def cellAt (cs : List String) (c : String) (r : List (Option ℚ)) : Option ℚ :=
  match cs.indexOf? c with
  | some i => r.getD i none
  | none => none

/-- pandas `DataFrame.empty`: an empty row axis or an empty column axis. -/
def dfEmpty (df : DFrame) : Bool := df.rows.isEmpty || df.cols.isEmpty

/-- Column `i` of a row list, as a series. -/
def columnOf (rows : List (List (Option ℚ))) (i : ℕ) : List (Option ℚ) :=
  rows.map (fun r => r.getD i none)

/-! ## The per-table statistical model (external collaborator) -/

/-- Modelled from the spec: the per-table statistical model
(`GaussianCopulaSynthesizer` from `sdgx.models.statistics.single_table.copula`,
which is not part of the given sources) is an "external capability, referenced
not specified": it is "fit from rows" and "exports a flat numeric parameter
vector".  Per column the flat vector carries the four `beta`-family parameters
`a`, `b`, `loc`, `scale` (the class default distribution); the parameter values
are simple column summaries since the spec leaves them to the collaborator. -/
def copulaColParams (c : String) (xs : List (Option ℚ)) : List (String × Option ℚ) :=
  let vs := xs.filterMap id
  [(c ++ "__a", some 1), (c ++ "__b", some 1),
   (c ++ "__loc", some ((seriesMean xs).getD 0)),
   (c ++ "__scale", some (listMax vs - listMax (vs.map Neg.neg)))]

/-- Modelled from the spec: one correlation entry per unordered pair of data
columns of the fitted table. -/
def copulaCorrKeys (n : ℕ) : List String :=
  (List.range n).flatMap
    (fun j => (List.range j).map (fun i => "corr__" ++ toString i ++ "__" ++ toString j))

/-- Modelled from the spec: the flat parameter vector exported by a fitted
model — the row count `num_rows`, the per-column distribution parameters and
the correlation entries (`synthesizer._get_parameters()`). -/
def copulaGetParameters (cols : List String) (rows : List (List (Option ℚ))) :
    List (String × Option ℚ) :=
  ("num_rows", some ((rows.length : ℚ))) ::
    ((List.range cols.length).flatMap
        (fun i => copulaColParams (cols.getD i "") (columnOf rows i)) ++
      (copulaCorrKeys cols.length).map (fun k => (k, some 0)))

/-- The keys of the flat parameter vector; they depend only on the column
list, never on the fitted rows. -/
def copulaParamKeys (cols : List String) : List String :=
  "num_rows" ::
    ((List.range cols.length).flatMap
        (fun i =>
          let c := cols.getD i ""
          [c ++ "__a", c ++ "__b", c ++ "__loc", c ++ "__scale"]) ++
      copulaCorrKeys cols.length)

/-- The type of the per-group model fit used during augmentation: from
(data columns, group rows) to the flat parameter record, or a raised
exception. -/
abbrev FitFun :=
  List String → List (List (Option ℚ)) → Except Unit (List (String × Option ℚ))

/-- The fit used when no numerical failure occurs: always succeeds with the
flattened copula parameters. -/
def copulaFit : FitFun := fun cols rows => .ok (copulaGetParameters cols rows)

/-! ## Augmentation: `HMA.get_extended_columns` (hma.py lines 152–219) -/

/-- The namespacing applied to every extension-row field:
`f'__{child_table_name}__{foreign_key}__' + row.index`. -/
def extPfx (childName foreignKey : String) : String :=
  "__" ++ childName ++ "__" ++ foreignKey ++ "__"

/-- One iteration of the `for foreign_key_value in foreign_key_values` loop of
`HMA.get_extended_columns` (lines 184–217): process one foreign-key group.
`sc` is the loop-carried `scale_columns` variable (`None` until first set). -/
def processGroup (fit : FitFun) (dataCols : List String) (pfx : String)
    (grp : List (List (Option ℚ))) (sc : Option (List String)) :
    Except Unit (List (String × Option ℚ) × Option (List String)) :=
  if grp.isEmpty then
    .ok ([(pfx ++ "num_rows", some ((grp.length : ℚ)))], sc)
  else
    match fit dataCols grp with
    | .error e => .error e
    | .ok params =>
      let row := params.map (fun kv => (pfx ++ kv.1, kv.2))
      let sc' := match sc with
        | some l => l
        | none => (row.map Prod.fst).filter (fun k => pyEndsWith k "scale")
      let row' := if grp.length = 1
        then row.map (fun kv => if kv.1 ∈ sc' then (kv.1, (none : Option ℚ)) else kv)
        else row
      .ok (row', some sc')

/-- The group loop of `HMA.get_extended_columns`: successive foreign-key
values, threading `scale_columns`, appending one `(index, extension row)` pair
per group and silently dropping any group whose fit raises
(`except Exception: pass`). -/
def extLoop (fit : FitFun) (dataCols : List String) (pfx : String)
    (groupOf : Option ℚ → List (List (Option ℚ))) :
    List (Option ℚ) → Option (List String) → List (Option ℚ × List (String × Option ℚ))
  | [], _ => []
  | v :: vs, sc =>
    match processGroup fit dataCols pfx (groupOf v) sc with
    | .error _ => extLoop fit dataCols pfx groupOf vs sc
    | .ok (row, sc') => (v, row) :: extLoop fit dataCols pfx groupOf vs sc'

/-- The rows of the child table carrying foreign-key value `v`, restricted to
the data columns (`child_table.loc[[v]]` on the frame indexed by the foreign
key, then `columns.difference(foreign_key_columns)`). -/
def fkGroup (child : DFrame) (foreignKey : String) (dataCols : List String)
    (v : Option ℚ) : List (List (Option ℚ)) :=
  (child.rows.filter (fun r => cellAt child.cols foreignKey r = v)).map
    (fun r => dataCols.map (fun c => cellAt child.cols c r))

/-- The data columns seen by the per-group fit: the child's columns without
the grouping foreign key (removed by `set_index`) and without any of the
child's foreign-key columns (`columns.difference(foreign_key_columns)`). -/
def extDataCols (child : DFrame) (foreignKey : String) (fkCols : List String) :
    List String :=
  (child.cols.filter (· ≠ foreignKey)).filter (· ∉ fkCols)

/-- `HMA.get_extended_columns` (lines 152–219): the extension frame for one
(child table, foreign key) pair, one row per distinct foreign-key value
present in the child.  `fkCols` is `self._get_all_foreign_keys(child_table_name)`.
The child frame is indexed by `foreignKey` (`set_index`, removing it from the
columns) and restricted to `columns.difference(foreign_key_columns)`; pandas
sorts that difference alphabetically, which is immaterial here, so the source
column order is kept.  A NaN foreign-key value is treated as an ordinary
group key. -/
def get_extended_columns (fit : FitFun) (childName foreignKey : String)
    (fkCols : List String) (child : DFrame) :
    List (Option ℚ × List (String × Option ℚ)) :=
  let pfx := extPfx childName foreignKey
  let dataCols := extDataCols child foreignKey fkCols
  let fkValues := uniqueFirst (child.rows.map (cellAt child.cols foreignKey))
  extLoop fit dataCols pfx (fkGroup child foreignKey dataCols) fkValues none

/-! ## Helper lemmas -/

/-- Whether an `Except` value is a success. -/
def exOk {ε α : Type} : Except ε α → Bool
  | .ok _ => true
  | .error _ => false

theorem suffix_append_iff_of_length_le {α : Type} {t p k : List α}
    (h : t.length ≤ k.length) : t <:+ (p ++ k) ↔ t <:+ k := by
  constructor
  · intro hs
    have ht := List.suffix_iff_eq_drop.mp hs
    rw [List.length_append, Nat.add_sub_assoc h, ← List.drop_drop,
      List.drop_left] at ht
    exact ht ▸ List.drop_suffix _ _
  · intro hs
    exact hs.trans (List.suffix_append p k)

theorem pyEndsWith_append (p k t : String) (h : t.data.length ≤ k.data.length) :
    pyEndsWith (p ++ k) t = pyEndsWith k t := by
  simp only [pyEndsWith, String.data_append]
  rw [Bool.eq_iff_iff]
  simp only [List.isSuffixOf_iff_suffix]
  exact suffix_append_iff_of_length_le h

theorem mem_uniqueFirst {α : Type} [DecidableEq α] {a : α} {l : List α} :
    a ∈ uniqueFirst l ↔ a ∈ l := by
  induction l using uniqueFirst.induct with
  | case1 => simp [uniqueFirst]
  | case2 x xs ih =>
    rw [uniqueFirst]
    simp only [List.mem_cons]
    constructor
    · rintro (rfl | h)
      · exact Or.inl rfl
      · rcases List.mem_filter.mp (ih.mp h) with ⟨h1, _⟩
        exact Or.inr h1
    · rintro (rfl | h)
      · exact Or.inl rfl
      · by_cases hx : a = x
        · exact Or.inl hx
        · exact Or.inr (ih.mpr (List.mem_filter.mpr ⟨h, by simpa using hx⟩))

theorem nodup_uniqueFirst {α : Type} [DecidableEq α] {l : List α} :
    (uniqueFirst l).Nodup := by
  induction l using uniqueFirst.induct with
  | case1 => simp [uniqueFirst]
  | case2 x xs ih =>
    rw [uniqueFirst]
    refine List.nodup_cons.mpr ⟨fun hx => ?_, ih⟩
    have := List.mem_filter.mp (mem_uniqueFirst.mp hx)
    simp at this

@[simp] theorem exOk_ok {ε α : Type} (a : α) : exOk (Except.ok a : Except ε α) = true := rfl

@[simp] theorem exOk_error {ε α : Type} (e : ε) :
    exOk (Except.error e : Except ε α) = false := rfl

theorem processGroup_isOk (fit : FitFun) (dataCols : List String) (pfx : String)
    (grp : List (List (Option ℚ))) (sc : Option (List String)) :
    exOk (processGroup fit dataCols pfx grp sc)
      = (grp.isEmpty || exOk (fit dataCols grp)) := by
  unfold processGroup
  cases hg : grp.isEmpty
  · rw [if_neg (by simp [hg]), Bool.false_or]
    cases hf : fit dataCols grp <;> simp [exOk, hf]
  · rw [if_pos (by simp [hg])]
    simp

/-- The index of the extension frame built by the group loop: the foreign-key
values whose group either is empty or fits successfully, in order. -/
theorem extLoop_map_fst (fit : FitFun) (dataCols : List String) (pfx : String)
    (groupOf : Option ℚ → List (List (Option ℚ))) :
    ∀ (vs : List (Option ℚ)) (sc : Option (List String)),
      (extLoop fit dataCols pfx groupOf vs sc).map Prod.fst
        = vs.filter (fun v => (groupOf v).isEmpty || exOk (fit dataCols (groupOf v))) := by
  intro vs
  induction vs with
  | nil => intro sc; simp [extLoop]
  | cons v vs ih =>
    intro sc
    rw [List.filter_cons]
    have hok := processGroup_isOk fit dataCols pfx (groupOf v) sc
    cases hpg : processGroup fit dataCols pfx (groupOf v) sc with
    | error e =>
      rw [hpg, exOk_error] at hok
      rw [extLoop, hpg, if_neg (by rw [← hok]; simp)]
      exact ih sc
    | ok out =>
      rw [hpg, exOk_ok] at hok
      rw [extLoop, hpg]
      simp only [List.map_cons]
      rw [if_pos hok.symm]
      exact congrArg (List.cons v) (ih out.2)

theorem copulaGetParameters_map_fst (cols : List String)
    (rows : List (List (Option ℚ))) :
    (copulaGetParameters cols rows).map Prod.fst = copulaParamKeys cols := by
  simp [copulaGetParameters, copulaParamKeys, copulaColParams, List.map_flatMap,
    Function.comp_def]

/-- Invariant of the loop-carried `scale_columns` variable: every recorded
column name ends with `"scale"`. -/
def ScInv : Option (List String) → Prop
  | none => True
  | some l => ∀ k ∈ l, pyEndsWith k "scale" = true

theorem numRowsKey_not_scale (pfx : String) :
    pyEndsWith (pfx ++ "num_rows") "scale" = false := by
  rw [pyEndsWith_append pfx "num_rows" "scale" (by decide)]
  decide

theorem processGroup_copulaFit (dataCols : List String) (pfx : String)
    (grp : List (List (Option ℚ))) (sc : Option (List String)) (hsc : ScInv sc) :
    ∃ row sc',
      processGroup copulaFit dataCols pfx grp sc = .ok (row, sc') ∧
      ScInv sc' ∧
      List.lookup (pfx ++ "num_rows") row = some (some ((grp.length : ℚ))) := by
  by_cases hg : grp.isEmpty
  · refine ⟨[(pfx ++ "num_rows", some ((grp.length : ℚ)))], sc, ?_, hsc, ?_⟩
    · unfold processGroup
      rw [if_pos hg]
    · simp [List.lookup]
  · have hrow : copulaGetParameters dataCols grp
        = ("num_rows", some ((grp.length : ℚ)))
            :: ((List.range dataCols.length).flatMap
                  (fun i => copulaColParams (dataCols.getD i "") (columnOf grp i)) ++
                (copulaCorrKeys dataCols.length).map (fun k => (k, some 0))) := rfl
    have hrowdef : True := trivial
    set row := (copulaGetParameters dataCols grp).map
        (fun kv => (pfx ++ kv.1, kv.2)) with hrow2
    set sc' := (match sc with
      | some l => l
      | none => (row.map Prod.fst).filter (fun k => pyEndsWith k "scale")) with hscdef
    have hscInv : ∀ k ∈ sc', pyEndsWith k "scale" = true := by
      rw [hscdef]
      match sc with
      | some l => exact hsc
      | none => intro k hk; exact (List.mem_filter.mp hk).2
    have hpg : processGroup copulaFit dataCols pfx grp sc
        = .ok ((if grp.length = 1
            then row.map (fun kv =>
              if kv.1 ∈ sc' then (kv.1, (none : Option ℚ)) else kv)
            else row), some sc') := by
      unfold processGroup copulaFit
      rw [if_neg hg]
    have hhead : row = (pfx ++ "num_rows", some ((grp.length : ℚ)))
        :: ((copulaGetParameters dataCols grp).tail.map
              (fun kv => (pfx ++ kv.1, kv.2))) := by
      rw [hrow2, hrow]
      rfl
    have hns : (pfx ++ "num_rows") ∉ sc' := fun hmem => by
      simpa [numRowsKey_not_scale pfx] using hscInv _ hmem
    by_cases h1 : grp.length = 1
    · rw [if_pos h1] at hpg
      refine ⟨_, some sc', hpg, hscInv, ?_⟩
      rw [hhead, List.map_cons,
        if_neg (show ¬((pfx ++ "num_rows", some ((grp.length : ℚ))).1 ∈ sc')
          from hns)]
      simp [List.lookup]
    · rw [if_neg h1] at hpg
      refine ⟨_, some sc', hpg, hscInv, ?_⟩
      rw [hhead]
      simp [List.lookup]

theorem extLoop_copulaFit (dataCols : List String) (pfx : String)
    (groupOf : Option ℚ → List (List (Option ℚ))) :
    ∀ (vs : List (Option ℚ)) (sc : Option (List String)), ScInv sc →
      (extLoop copulaFit dataCols pfx groupOf vs sc).map Prod.fst = vs ∧
      ∀ v row, (v, row) ∈ extLoop copulaFit dataCols pfx groupOf vs sc →
        List.lookup (pfx ++ "num_rows") row
          = some (some (((groupOf v).length : ℚ))) := by
  intro vs
  induction vs with
  | nil => intro sc _; exact ⟨rfl, by intro v row h; simp [extLoop] at h⟩
  | cons v vs ih =>
    intro sc hsc
    obtain ⟨row, sc', hpg, hsc', hlk⟩ :=
      processGroup_copulaFit dataCols pfx (groupOf v) sc hsc
    obtain ⟨ihfst, ihmem⟩ := ih sc' hsc'
    constructor
    · rw [extLoop, hpg, List.map_cons, ihfst]
    · intro v' row' hmem
      rw [extLoop, hpg] at hmem
      rcases List.mem_cons.mp hmem with heq | htail
      · obtain ⟨hv, hr⟩ := Prod.mk.injEq .. ▸ heq
        subst hv; subst hr
        exact hlk
      · exact ihmem v' row' htail

/-- The scale-column list computed by the augmentation loop from a
successfully fitted group: the namespaced parameter keys ending in
`"scale"`. -/
def scaleKeysOf (dataCols : List String) (pfx : String) : List String :=
  ((copulaParamKeys dataCols).map (fun k => pfx ++ k)).filter
    (fun k => pyEndsWith k "scale")

/-! ## Claim theorems on the augmentation of one (child, foreign key) pair -/

/-- **C1**: augmenting a parent over child `C` and foreign key `F` produces
exactly one extension row per distinct value of `F` present in `C`'s rows (the
result's index is the list of distinct `F` values, without duplicates), and
each extension row's `num_rows` field equals the number of `C` rows whose `F`
column holds that value. -/
theorem extension_rows_per_fk_value_and_counts (childName foreignKey : String)
    (fkCols : List String) (child : DFrame) :
    ((get_extended_columns copulaFit childName foreignKey fkCols child).map Prod.fst
        = uniqueFirst (child.rows.map (cellAt child.cols foreignKey)) ∧
      ((get_extended_columns copulaFit childName foreignKey fkCols child).map
          Prod.fst).Nodup) ∧
    ∀ v row,
      (v, row) ∈ get_extended_columns copulaFit childName foreignKey fkCols child →
      List.lookup (extPfx childName foreignKey ++ "num_rows") row
        = some (some (((child.rows.filter
            (fun r => cellAt child.cols foreignKey r = v)).length : ℚ))) := by
  have h := extLoop_copulaFit (extDataCols child foreignKey fkCols)
      (extPfx childName foreignKey)
      (fkGroup child foreignKey (extDataCols child foreignKey fkCols))
      (uniqueFirst (child.rows.map (cellAt child.cols foreignKey))) none trivial
  refine ⟨⟨h.1, ?_⟩, ?_⟩
  · rw [show ((get_extended_columns copulaFit childName foreignKey fkCols child).map
        Prod.fst) = uniqueFirst (child.rows.map (cellAt child.cols foreignKey))
        from h.1]
    exact nodup_uniqueFirst
  · intro v row hmem
    have hv := h.2 v row hmem
    rwa [fkGroup, List.length_map] at hv

/-- **C7**: during augmentation, a foreign-key group with exactly one row has
all of its `scale` (dispersion) parameters set to null in its extension row,
and a group with zero rows yields an extension row whose `num_rows` field is
`0` and which binds no other field (so every other field is null in the
assembled extension frame, before the later null-fill pass).  `sc` is the
loop-carried `scale_columns` state: either still unset, or the scale keys
computed from an earlier group of the same child table. -/
theorem degenerate_group_extension_rows (dataCols : List String) (pfx : String) :
    (∀ (grp : List (List (Option ℚ))) (sc : Option (List String)),
        grp.length = 1 →
        sc = none ∨ sc = some (scaleKeysOf dataCols pfx) →
        ∃ row sc'',
          processGroup copulaFit dataCols pfx grp sc = .ok (row, sc'') ∧
          ∀ k v, (k, v) ∈ row → pyEndsWith k "scale" = true → v = none) ∧
    (∀ sc : Option (List String),
        processGroup copulaFit dataCols pfx [] sc
          = .ok ([(pfx ++ "num_rows", some 0)], sc) ∧
        ∀ k : String, k ≠ pfx ++ "num_rows" →
          List.lookup k [(pfx ++ "num_rows", (some 0 : Option ℚ))] = none) := by
  constructor
  · intro grp sc h1 hsc
    have hg : ¬grp.isEmpty = true := by
      cases grp with
      | nil => simp at h1
      | cons a l => simp
    set rawRow := (copulaGetParameters dataCols grp).map
        (fun kv => (pfx ++ kv.1, kv.2)) with hraw
    set sc' := (match sc with
      | some l => l
      | none => (rawRow.map Prod.fst).filter (fun k => pyEndsWith k "scale"))
      with hscdef
    have hkeys : rawRow.map Prod.fst
        = (copulaParamKeys dataCols).map (fun k => pfx ++ k) := by
      rw [hraw, List.map_map,
        show (Prod.fst ∘ fun kv : String × Option ℚ => (pfx ++ kv.1, kv.2))
          = (fun k => pfx ++ k) ∘ Prod.fst from rfl,
        ← List.map_map, copulaGetParameters_map_fst]
    have hsceq : sc' = scaleKeysOf dataCols pfx := by
      rw [hscdef]
      rcases hsc with h | h
      · subst h
        rw [show (match (none : Option (List String)) with
            | some l => l
            | none => (rawRow.map Prod.fst).filter (fun k => pyEndsWith k "scale"))
            = (rawRow.map Prod.fst).filter (fun k => pyEndsWith k "scale") from rfl,
          hkeys]
        rfl
      · subst h
        rfl
    have hpg : processGroup copulaFit dataCols pfx grp sc
        = .ok ((if grp.length = 1
            then rawRow.map
              (fun kv => if kv.1 ∈ sc' then (kv.1, (none : Option ℚ)) else kv)
            else rawRow), some sc') := by
      unfold processGroup copulaFit
      rw [if_neg hg]
    rw [if_pos h1] at hpg
    refine ⟨_, some sc', hpg, ?_⟩
    intro k v hkv hscale
    rcases List.mem_map.mp hkv with ⟨kv₀, hkv₀, hmap⟩
    by_cases hmem : kv₀.1 ∈ sc'
    · rw [if_pos hmem] at hmap
      injection hmap with h1 h2
      exact h2.symm
    · rw [if_neg hmem] at hmap
      exfalso
      apply hmem
      rw [hsceq]
      subst hmap
      refine List.mem_filter.mpr ⟨?_, hscale⟩
      rw [← hkeys]
      exact List.mem_map_of_mem Prod.fst hkv₀
  · intro sc
    constructor
    · simp [processGroup]
    · intro k hk
      simp only [List.lookup]
      rw [beq_eq_false_iff_ne.mpr hk]

/-- **C8**: any foreign-key group whose per-group fit raises is omitted
entirely from the extension output while the loop continues: the extension
frame's index equals the distinct foreign-key values filtered to those whose
group is empty or fits successfully (and `get_extended_columns` is a total
function — the exception never propagates). -/
theorem failing_group_fit_omitted (fit : FitFun) (childName foreignKey : String)
    (fkCols : List String) (child : DFrame) :
    (get_extended_columns fit childName foreignKey fkCols child).map Prod.fst
      = (uniqueFirst (child.rows.map (cellAt child.cols foreignKey))).filter
          (fun v =>
            (fkGroup child foreignKey (extDataCols child foreignKey fkCols) v).isEmpty
              || exOk (fit (extDataCols child foreignKey fkCols)
                  (fkGroup child foreignKey (extDataCols child foreignKey fkCols) v))) :=
  extLoop_map_fst fit (extDataCols child foreignKey fkCols)
    (extPfx childName foreignKey)
    (fkGroup child foreignKey (extDataCols child foreignKey fkCols))
    (uniqueFirst (child.rows.map (cellAt child.cols foreignKey))) none

/-- Witness for the two hypotheses of `degenerate_group_extension_rows`,
at a one-column child with a single one-row group and an empty group. -/
theorem degenerate_group_extension_rows_witness :
    (∃ row sc'',
        processGroup copulaFit ["x"] "__c__f__" [[some 2]] none = .ok (row, sc'') ∧
        ∀ k v, (k, v) ∈ row → pyEndsWith k "scale" = true → v = none) ∧
    (processGroup copulaFit ["x"] "__c__f__" [] none
        = .ok ([("__c__f__" ++ "num_rows", some 0)], none) ∧
      ∀ k : String, k ≠ "__c__f__" ++ "num_rows" →
        List.lookup k [("__c__f__" ++ "num_rows", (some 0 : Option ℚ))] = none) :=
  ⟨(degenerate_group_extension_rows ["x"] "__c__f__").1 [[some 2]] none
      (by decide) (Or.inl rfl),
    (degenerate_group_extension_rows ["x"] "__c__f__").2 none⟩

/-! ## Column estimator: `HMA._get_num_extended_columns` (hma.py lines 40–70) -/

/-- `HMA._get_num_extended_columns` (lines 40–70): the number of extension
columns one (parent, child) edge contributes.  `numRowsColumns` is
`len(self._get_foreign_keys(parent_table, table_name))` and `numDataColumns`
is `columns_per_table[table_name]` at call time; `distribution` is the
child's `default_distribution` table parameter (these lookups live in the
base class and the metadata collaborator, outside the given sources). -/
def get_num_extended_columns (distribution : String)
    (numRowsColumns numDataColumns : ℕ) : ℕ :=
  if numDataColumns = 0 then numRowsColumns
  else
    let numParametersColumns := numRowsColumns * numDataColumns
    let numParametersColumns :=
      if distribution = "beta" ∨ distribution = "truncnorm" then
        numParametersColumns * 4
      else if distribution = "gamma" then numParametersColumns * 3
      else if distribution = "norm" ∨ distribution = "uniform" then
        numParametersColumns * 2
      else numParametersColumns
    let numCorrelationColumns :=
      numRowsColumns * (numDataColumns - 1) * numDataColumns / 2
    numCorrelationColumns + numRowsColumns + numParametersColumns

/-- The per-edge contribution exactly as the claim words it: `f` num_rows
columns when `c = 0`; otherwise `f` plus `f·c` scaled by the family
multiplier — ×4 beta/truncnorm, ×3 gamma, ×2 norm/uniform, ×0 for any
unlisted family — plus `f·c·(c−1)/2` correlation columns. -/
def claimedEdgeColumns (distribution : String) (f c : ℕ) : ℕ :=
  if c = 0 then f
  else
    let mult : ℕ :=
      if distribution = "beta" ∨ distribution = "truncnorm" then 4
      else if distribution = "gamma" then 3
      else if distribution = "norm" ∨ distribution = "uniform" then 2
      else 0
    f + mult * (f * c) + f * c * (c - 1) / 2

/-- The distribution-family multiplier the code actually applies:
beta/truncnorm ×4, gamma ×3, norm/uniform ×2, any unlisted family ×1 (the
parameter-column count is left unscaled, not zeroed). -/
def familyMult (distribution : String) : ℕ :=
  if distribution = "beta" ∨ distribution = "truncnorm" then 4
  else if distribution = "gamma" then 3
  else if distribution = "norm" ∨ distribution = "uniform" then 2
  else 1

/-- **C6 counterexample**: for an unlisted distribution family
(`"exponential"`) with one foreign key and one data column the code counts
`1 + 1·1·1 + 0 = 2` columns, while the claimed ×0 multiplier for unlisted
families would give `1 + 0 + 0 = 1`. -/
theorem estimator_unlisted_family_differs :
    get_num_extended_columns "exponential" 1 1 = 2 ∧
      claimedEdgeColumns "exponential" 1 1 = 1 := by
  constructor <;> rfl

/-- **C6 amended**: the per-edge contribution equals `f` num_rows columns when
`c = 0`, and otherwise `f` plus `f·c` scaled by the family multiplier — ×4
beta/truncnorm, ×3 gamma, ×2 norm/uniform, ×1 (unscaled) for any unlisted
family — plus `f·c·(c−1)/2` correlation columns. -/
theorem estimator_edge_formula (distribution : String) (f c : ℕ) :
    get_num_extended_columns distribution f c
      = if c = 0 then f
        else f + familyMult distribution * (f * c) + f * c * (c - 1) / 2 := by
  have hdiv : f * (c - 1) * c = f * c * (c - 1) := by ring
  simp only [get_num_extended_columns, familyMult]
  by_cases hc : c = 0
  · simp [hc]
  · rw [if_neg hc, if_neg hc, hdiv]
    split_ifs <;> ring

/-! ## Root sampling count: `HMA.sample` (hma.py lines 513–536) -/

/-- The root-table row count computed by `HMA.sample` (line 533):
`num_rows = int(self._table_sizes[table] * count)`, where `count` is the
scale factor (default `1.0`) and `_table_sizes[table]` is the original row
count recorded during augmentation.  Modelled from the spec, the fitted
synthesizer then returns exactly this many rows (`sample(n) → n rows`). -/
def rootSampleCount (tableSize : ℕ) (count : ℚ) : ℕ :=
  (pyInt ((tableSize : ℚ) * count)).toNat

/-- The root-table row count exactly as the claim words it:
`round(originalRowCount × scaleFactor)`. -/
def claimedRootSampleCount (tableSize : ℕ) (count : ℚ) : ℕ :=
  (pyRound ((tableSize : ℚ) * count)).toNat

/-- **C3 counterexample**: with 3 original root rows and scale factor `1/2`
the code samples `int(1.5) = 1` row while the claim demands
`round(1.5) = 2`. -/
theorem root_sample_count_not_rounded :
    rootSampleCount 3 (1/2) = 1 ∧ claimedRootSampleCount 3 (1/2) = 2 := by
  constructor
  · show (pyInt ((3 : ℚ) * (1/2))).toNat = 1
    norm_num [pyInt]
  · show (pyRound ((3 : ℚ) * (1/2))).toNat = 2
    norm_num [pyRound]
    rfl

/-- **C3 amended**: for every root table with original row count `N` and every
nonnegative scale factor, `sample` produces `int(N × scaleFactor)` rows —
truncation toward zero, i.e. the floor for nonnegative values — and in
particular with the default scale factor `1.0` the root table has exactly
`N` rows. -/
theorem root_sample_count_truncates (n : ℕ) (count : ℚ) (h : 0 ≤ count) :
    rootSampleCount n count = (⌊(n : ℚ) * count⌋).toNat ∧
    rootSampleCount n 1 = n := by
  constructor
  · unfold rootSampleCount pyInt
    rw [if_pos (mul_nonneg (by positivity) h)]
  · unfold rootSampleCount pyInt
    rw [if_pos (by positivity), mul_one]
    simp

/-- Witness for `root_sample_count_truncates` at `N = 3`, scale factor `1/2`. -/
theorem root_sample_count_truncates_witness :
    (0 : ℚ) ≤ 1/2 ∧
      (rootSampleCount 3 (1/2) = (⌊(3 : ℚ) * (1/2)⌋).toNat ∧
        rootSampleCount 3 1 = 3) :=
  ⟨by norm_num, root_sample_count_truncates 3 (1/2) (by norm_num)⟩

/-! ## Likelihood-weighted parent assignment: `HMA._find_parent_id`
(hma.py lines 557–596) -/

/-- Draw from a categorical distribution: walk the (item, weight) list with a
uniform draw `u ∈ [0, 1)` (`np.random.choice(items, p=weights)`). -/
def categPick {α : Type} : List (α × ℚ) → ℚ → Option α
  | [], _ => none
  | (a, w) :: rest, u => if u < w then some a else categPick rest (u - w)

/-- The fallback-resolution step of `_find_parent_id` (lines 573–585): if all
likelihoods are zero use the num_rows values; else if the NaN-skipping mean is
NaN or zero fill the NaN entries with num_rows; else fill them with the
mean. -/
def fpiResolve {α : Type} [DecidableEq α] (likelihoods : List (α × Option ℚ))
    (numRows : α → ℚ) : List (α × ℚ) :=
  let m := seriesMean (likelihoods.map Prod.snd)
  if likelihoods.all (fun p => decide (p.2 = some 0)) then
    likelihoods.map (fun p => (p.1, numRows p.1))
  else if m = none ∨ m = some 0 then
    likelihoods.map (fun p => (p.1, p.2.getD (numRows p.1)))
  else
    likelihoods.map (fun p => (p.1, p.2.getD (m.getD 0)))

/-- The normalisation step of `_find_parent_id` (lines 587–594): weights from
the resolved likelihoods — uniform when the total is zero, else each value
divided by the total. -/
def fpiWeights {α : Type} (l2 : List (α × ℚ)) : List (α × ℚ) :=
  let total := (l2.map Prod.snd).sum
  if total = 0 then l2.map (fun p => (p.1, 1 / (l2.length : ℚ)))
  else l2.map (fun p => (p.1, p.2 / total))

/-- `HMA._find_parent_id` (lines 557–596): choose a parent id for one child
row from the per-parent likelihood series (`none` is NaN from a failed
scoring), with the num_rows fallbacks, normalisation and uniform last resort.
The stochastic draw of `np.random.choice` is modelled by the uniform sample
`u`. -/
def find_parent_id {α : Type} [DecidableEq α] (likelihoods : List (α × Option ℚ))
    (numRows : α → ℚ) (u : ℚ) : Option α :=
  categPick (fpiWeights (fpiResolve likelihoods numRows)) u

theorem fpiResolve_singleton {α : Type} [DecidableEq α] (pid : α)
    (l : Option ℚ) (numRows : α → ℚ) :
    ∃ x : ℚ, fpiResolve [(pid, l)] numRows = [(pid, x)] := by
  unfold fpiResolve
  dsimp only
  split_ifs <;> exact ⟨_, rfl⟩

theorem fpiWeights_singleton {α : Type} (a : α) (x : ℚ) :
    fpiWeights [(a, x)] = [(a, 1)] := by
  simp only [fpiWeights, List.map_cons, List.map_nil, List.sum_cons,
    List.sum_nil, add_zero, List.length_cons, List.length_nil]
  by_cases hx : x = 0
  · rw [if_pos hx]
    norm_num
  · rw [if_neg hx, div_self hx]

/-- **C9**: whenever the sampled parent table contains exactly one row,
likelihood-weighted foreign-key reconstruction assigns that single parent's
primary key for every uniform draw `u ∈ [0,1)`, whether the likelihood score
is a valid number, null (NaN), or zero. -/
theorem single_parent_always_chosen {α : Type} [DecidableEq α] (pid : α)
    (l : Option ℚ) (numRows : α → ℚ) (u : ℚ) (h0 : 0 ≤ u) (h1 : u < 1) :
    find_parent_id [(pid, l)] numRows u = some pid := by
  obtain ⟨x, hx⟩ := fpiResolve_singleton pid l numRows
  unfold find_parent_id
  rw [hx, fpiWeights_singleton]
  simp [categPick, h1]

/-- Witness for `single_parent_always_chosen`: a single parent with a NaN
likelihood and draw `u = 1/2`. -/
theorem single_parent_always_chosen_witness :
    (0 : ℚ) ≤ 1/2 ∧ (1/2 : ℚ) < 1 ∧
      find_parent_id [((3 : ℚ), (none : Option ℚ))] (fun _ => 5) (1/2) = some 3 :=
  ⟨by norm_num, by norm_num,
    single_parent_always_chosen (3 : ℚ) none (fun _ => 5) (1/2)
      (by norm_num) (by norm_num)⟩

/-! ## Parameter extraction: `HMA._extract_parameters` (hma.py lines 332–363) -/

/-- The recorded per-parameter float formatter: the observed [min, max]
bounds used for clipping (`float_formatter._min_value`,
`float_formatter._max_value`). -/
structure FloatFormatter where
  minValue : ℚ
  maxValue : ℚ
deriving Repr, DecidableEq

/-- `key[len(prefix):]` — drop the namespacing from a parameter key. -/
def stripPfx (pfx k : String) : String := ⟨k.data.drop pfx.data.length⟩

/-- `HMA._extract_parameters` (lines 332–363): slice a generated parent row's
namespaced parameters for one (child table, foreign key) pair, fill NaN with
`1e-6`, cap the row-count parameter at `maxChildRows`
(`self._max_child_rows[num_rows_key]`, the maximum observed during
augmentation), clip every parameter to its recorded bounds, and strip the
namespace from the keys.  The `self.extended_columns` registry of per-column
formatters is populated outside the given sources (its rdt integration is
commented out in `get_extended_table`); modelled from the spec, it records
each extension column's observed [min, max] bounds at fit time and is passed
here as the total lookup `formatters`. -/
def extract_parameters (maxChildRows : ℚ) (formatters : String → FloatFormatter)
    (tableName foreignKey : String) (parentRow : List (String × Option ℚ)) :
    List (String × ℚ) :=
  let pfx := extPfx tableName foreignKey
  let keys := (parentRow.map Prod.fst).filter (fun k => pyStartsWith k pfx)
  let flat : List (String × ℚ) :=
    keys.map (fun k => (k, ((List.lookup k parentRow).getD none).getD (1/1000000)))
  let numRowsKey := pfx ++ "num_rows"
  let flat := flat.map (fun kv =>
    if kv.1 = numRowsKey then (kv.1, min maxChildRows ((pyRound kv.2 : ℤ) : ℚ))
    else kv)
  let flat := flat.map (fun kv =>
    (kv.1, npClip kv.2 (formatters kv.1).minValue (formatters kv.1).maxValue))
  flat.map (fun kv => (stripPfx pfx kv.1, kv.2))

theorem npClip_bounds (x lo hi : ℚ) (h : lo ≤ hi) :
    lo ≤ npClip x lo hi ∧ npClip x lo hi ≤ hi :=
  ⟨le_min (le_max_right x lo) h, min_le_right _ _⟩

theorem append_stripPfx {pfx k : String} (h : pyStartsWith k pfx = true) :
    pfx ++ stripPfx pfx k = k := by
  unfold pyStartsWith at h
  obtain ⟨t, ht⟩ := List.isPrefixOf_iff_prefix.mp h
  apply String.ext
  rw [String.data_append]
  show pfx.data ++ k.data.drop pfx.data.length = k.data
  rw [← ht, List.drop_left]

/-- **C5**: every parameter value extracted from a generated parent row for a
(child table, foreign key) pair is, after clipping, within the [min, max]
bounds recorded for that parameter (the recorded bounds being observed ones,
`min ≤ max` holds), and the extracted row-count parameter never exceeds
`maxChildRows`, the maximum `num_rows` observed during augmentation (the
recorded upper bound of the num_rows column cannot exceed that maximum, which
is taken over a superset of the values the bounds were recorded from). -/
theorem extracted_parameters_within_bounds (maxChildRows : ℚ)
    (formatters : String → FloatFormatter) (tableName foreignKey : String)
    (parentRow : List (String × Option ℚ))
    (hwf : ∀ k, (formatters k).minValue ≤ (formatters k).maxValue)
    (hcap : (formatters (extPfx tableName foreignKey ++ "num_rows")).maxValue
        ≤ maxChildRows) :
    (∀ k v,
        (k, v) ∈ extract_parameters maxChildRows formatters tableName foreignKey
          parentRow →
        (formatters (extPfx tableName foreignKey ++ k)).minValue ≤ v ∧
          v ≤ (formatters (extPfx tableName foreignKey ++ k)).maxValue) ∧
    (∀ v,
        ("num_rows", v) ∈ extract_parameters maxChildRows formatters tableName
          foreignKey parentRow →
        v ≤ maxChildRows) := by
  have hmem : ∀ k v,
      (k, v) ∈ extract_parameters maxChildRows formatters tableName foreignKey
        parentRow →
      ∃ k₀ x, pyStartsWith k₀ (extPfx tableName foreignKey) = true ∧
        k = stripPfx (extPfx tableName foreignKey) k₀ ∧
        v = npClip x (formatters k₀).minValue (formatters k₀).maxValue := by
    intro k v hkv
    obtain ⟨kv₂, hkv₂, hmap₂⟩ := List.mem_map.mp hkv
    obtain ⟨kv₁, hkv₁, hmap₁⟩ := List.mem_map.mp hkv₂
    obtain ⟨kv₀, hkv₀, hmap₀⟩ := List.mem_map.mp hkv₁
    obtain ⟨k', hk', hmapk⟩ := List.mem_map.mp hkv₀
    have hstart : pyStartsWith k' (extPfx tableName foreignKey) = true :=
      (List.mem_filter.mp hk').2
    have hfst₀ : kv₀.1 = k' := by rw [← hmapk]
    have hfst₁ : kv₁.1 = k' := by
      rw [← hmap₀]
      by_cases hnr : kv₀.1 = extPfx tableName foreignKey ++ "num_rows"
      · rw [if_pos hnr]
        exact hfst₀
      · rw [if_neg hnr]
        exact hfst₀
    injection hmap₂ with h2a h2b
    have hc1 : kv₂.1 = kv₁.1 := by rw [← hmap₁]
    have hc2 : kv₂.2
        = npClip kv₁.2 (formatters kv₁.1).minValue (formatters kv₁.1).maxValue := by
      rw [← hmap₁]
    refine ⟨k', kv₁.2, hstart, ?_, ?_⟩
    · rw [← h2a, hc1, hfst₁]
    · rw [← h2b, hc2, hfst₁]
  constructor
  · intro k v hkv
    obtain ⟨k₀, x, hstart, hk, hv⟩ := hmem k v hkv
    have hkey : extPfx tableName foreignKey ++ k = k₀ := by
      rw [hk]
      exact append_stripPfx hstart
    rw [hkey, hv]
    exact npClip_bounds x _ _ (hwf k₀)
  · intro v hkv
    obtain ⟨k₀, x, hstart, hk, hv⟩ := hmem "num_rows" v hkv
    have hkey : extPfx tableName foreignKey ++ "num_rows" = k₀ := by
      rw [hk]
      exact append_stripPfx hstart
    rw [hv]
    calc npClip x (formatters k₀).minValue (formatters k₀).maxValue
        ≤ (formatters k₀).maxValue := min_le_right _ _
      _ ≤ maxChildRows := by rw [← hkey]; exact hcap

/-- Witness for `extracted_parameters_within_bounds`: bounds `[0, 10]` for
every column, cap `10`, and a parent row carrying a num_rows parameter and a
NaN loc parameter. -/
theorem extracted_parameters_within_bounds_witness :
    (∀ k : String, ((fun _ => FloatFormatter.mk 0 10) k).minValue
        ≤ ((fun _ => FloatFormatter.mk 0 10) k).maxValue) ∧
    (((fun _ => FloatFormatter.mk 0 10) (extPfx "c" "f" ++ "num_rows")).maxValue
        ≤ (10 : ℚ)) ∧
    ((∀ k v,
        (k, v) ∈ extract_parameters 10 (fun _ => FloatFormatter.mk 0 10) "c" "f"
          [(extPfx "c" "f" ++ "num_rows", some 3),
            (extPfx "c" "f" ++ "x__loc", none)] →
        ((fun _ => FloatFormatter.mk 0 10) (extPfx "c" "f" ++ k)).minValue ≤ v ∧
          v ≤ ((fun _ => FloatFormatter.mk 0 10) (extPfx "c" "f" ++ k)).maxValue) ∧
      (∀ v,
        ("num_rows", v) ∈ extract_parameters 10 (fun _ => FloatFormatter.mk 0 10)
          "c" "f" [(extPfx "c" "f" ++ "num_rows", some 3),
            (extPfx "c" "f" ++ "x__loc", none)] →
        v ≤ 10)) :=
  ⟨fun _ => by norm_num, by norm_num,
    extracted_parameters_within_bounds 10 (fun _ => FloatFormatter.mk 0 10)
      "c" "f" [(extPfx "c" "f" ++ "num_rows", some 3),
        (extPfx "c" "f" ++ "x__loc", none)]
      (fun _ => by norm_num) (by norm_num)⟩

/-! ## Child sampling: `HMA._sample_children` (hma.py lines 447–486) -/

/-- Modelled from the spec: a reconstructed child synthesizer "can sample N
rows" (`self._sample_rows(child_synthesizer, num_rows)` with
`synthesizer.sample(int(num_rows))`); every sampled row is then stamped with
the parent row's primary-key value, so a child row is modelled by its stamped
foreign-key value.  A nonpositive count yields no rows. -/
def sampleChildRows (n : ℚ) (parentKey : ℚ) : List ℚ :=
  List.replicate (pyInt n).toNat parentKey

/-- `HMA._get_num_rows_from_parent` (lines 394–405): the number of child rows
a parent row prescribes — 0 when the num_rows column is absent from the row,
else `min(self._max_child_rows[num_rows_key], round(num_rows))`. -/
def get_num_rows_from_parent (hasNumRowsCol : Bool) (maxChildRows : ℚ)
    (v : ℚ) : ℚ :=
  if hasNumRowsCol then min maxChildRows ((pyRound v : ℤ) : ℚ) else 0

/-- The forced-parent selection of `_sample_children` (lines 470–477): the
sampled parent row at `idxmax` of the raw num_rows column when that column
exists, else a uniformly random parent row (`.sample()`), modelled by the
index oracle `rng`.  (The sampled parent frames carry a default integer
index, so `iloc[idxmax]` is the first row holding the maximum.) -/
def forcedParent (hasNumRowsCol : Bool) (parents : List (ℚ × ℚ)) (rng : ℕ) :
    ℚ × ℚ :=
  if hasNumRowsCol then parents.getD (listIdxmax (parents.map Prod.snd)) (0, 0)
  else parents.getD (rng % parents.length) (0, 0)

/-- The per-child body of `HMA._sample_children` (lines 460–486) for one
(parent, child) pair not yet sampled: sample each parent row's prescribed
child rows (rows only accumulate when nonempty, so the child is present in
`sampled_data` exactly when some parent produced rows); if no parent produced
any, force exactly one row from the selected parent.  `parents` lists each
sampled parent row as its (primary key, num_rows column value) pair; with no
parent rows at all the source would raise on `idxmax`/`.sample()` (modelled
as no rows). -/
def sample_children_step (hasNumRowsCol : Bool) (maxChildRows : ℚ)
    (parents : List (ℚ × ℚ)) (rng : ℕ) : List ℚ :=
  let direct := parents.flatMap (fun p =>
    sampleChildRows (get_num_rows_from_parent hasNumRowsCol maxChildRows p.2) p.1)
  if direct.isEmpty then
    if parents.isEmpty then []
    else sampleChildRows 1 (forcedParent hasNumRowsCol parents rng).1
  else direct

theorem sampleChildRows_one (k : ℚ) : sampleChildRows 1 k = [k] := by
  unfold sampleChildRows pyInt
  rw [if_pos (by norm_num : (0 : ℚ) ≤ 1), Int.floor_one]
  rfl

/-- **C2**: for a sampled parent table with at least one row, the child table
receives at least one row; and when every parent row prescribes zero child
rows, exactly one row is forced, sampled from the parent row selected by
`forcedParent` — the row with the maximum row-count parameter when that
column exists, else the oracle-chosen (uniformly random) parent row. -/
theorem child_table_never_empty (hasNumRowsCol : Bool) (maxChildRows : ℚ)
    (parents : List (ℚ × ℚ)) (rng : ℕ) (hne : parents ≠ []) :
    1 ≤ (sample_children_step hasNumRowsCol maxChildRows parents rng).length ∧
    ((∀ p ∈ parents,
        (pyInt (get_num_rows_from_parent hasNumRowsCol maxChildRows p.2)).toNat
          = 0) →
      sample_children_step hasNumRowsCol maxChildRows parents rng
        = [(forcedParent hasNumRowsCol parents rng).1]) := by
  have hpe : parents.isEmpty = false := by
    cases parents with
    | nil => exact absurd rfl hne
    | cons a l => rfl
  unfold sample_children_step
  dsimp only
  by_cases hd : (parents.flatMap (fun p =>
      sampleChildRows (get_num_rows_from_parent hasNumRowsCol maxChildRows p.2)
        p.1)).isEmpty
  · rw [if_pos hd, hpe]
    rw [if_neg (by simp), sampleChildRows_one]
    exact ⟨by simp, fun _ => rfl⟩
  · rw [if_neg hd]
    constructor
    · have hnil : parents.flatMap (fun p =>
          sampleChildRows (get_num_rows_from_parent hasNumRowsCol maxChildRows p.2)
            p.1) ≠ [] := by
        intro hc
        rw [hc] at hd
        exact hd rfl
      exact Nat.succ_le_of_lt (List.length_pos.mpr hnil)
    · intro hall
      exfalso
      apply hd
      have hnil : parents.flatMap (fun p =>
          sampleChildRows (get_num_rows_from_parent hasNumRowsCol maxChildRows p.2)
            p.1) = [] := by
        rw [List.flatMap_eq_nil_iff]
        intro p hp
        unfold sampleChildRows
        rw [hall p hp]
        rfl
      rw [hnil]
      rfl

/-- Witness for `child_table_never_empty`: one parent row with primary key 7
prescribing 0 child rows. -/
theorem child_table_never_empty_witness :
    1 ≤ (sample_children_step true 10 [((7 : ℚ), 0)] 0).length ∧
      ((∀ p ∈ [((7 : ℚ), (0 : ℚ))],
          (pyInt (get_num_rows_from_parent true 10 p.2)).toNat = 0) →
        sample_children_step true 10 [((7 : ℚ), 0)] 0
          = [(forcedParent true [((7 : ℚ), 0)] 0).1]) :=
  child_table_never_empty true 10 [(7, 0)] 0 (List.cons_ne_nil _ _)

/-! ## Table modeling: `HMA.model_tables` (hma.py lines 307–328) -/

/-- `HMA._clear_nans` (lines 221–230): per column, fill NaN entries with the
column mean, or 0 when the whole column is null.  Cells are modelled as
numeric (`int`/`float` dtype); the most-frequent-value branch for non-numeric
columns is not representable in this numeric model. -/
def clearNans (df : DFrame) : DFrame :=
  { df with
    rows := (List.range df.cols.length).foldl (fun rows j =>
      let column := columnOf rows j
      let fillValue :=
        if column.all (fun c => decide (c = none)) then 0
        else (seriesMean column).getD 0
      rows.map (fun r => r.set j (some ((r.getD j none).getD fillValue))))
      df.rows }

/-- pandas `table_data.pop(c)`: remove the column, returning its values (a
missing column, which would raise `KeyError` in the source, leaves the frame
unchanged with no values). -/
def popColumn (df : DFrame) (c : String) : DFrame × List (Option ℚ) :=
  match df.cols.indexOf? c with
  | some j =>
    ({ cols := df.cols.eraseIdx j, rows := df.rows.map (fun r => r.eraseIdx j) },
      df.rows.map (fun r => r.getD j none))
  | none => (df, [])

/-- `HMA._pop_foreign_keys` (lines 286–305): remove the table's foreign-key
columns, returning the mapping foreign key → popped values. -/
def pop_foreign_keys (fks : List String) (df : DFrame) :
    DFrame × List (String × List (Option ℚ)) :=
  fks.foldl (fun acc fk =>
    ((popColumn acc.1 fk).1, acc.2 ++ [(fk, (popColumn acc.1 fk).2)])) (df, [])

/-- `table[name] = values` for a column not currently present: append it. -/
def addColumn (df : DFrame) (c : String) (vals : List (Option ℚ)) : DFrame :=
  { cols := df.cols ++ [c],
    rows := List.zipWith (fun r v => r ++ [v]) df.rows vals }

/-- The per-table body of `HMA.model_tables` (lines 320–328): pop the
foreign-key columns, apply the null-fill, fit one synthesizer exactly when
the resulting frame is nonempty (`if not table.empty`), then re-attach the
popped foreign-key columns.  Returns the final frame and whether a model was
fitted. -/
def modelTable (fks : List String) (df : DFrame) : DFrame × Bool :=
  let popped := pop_foreign_keys fks df
  let cleaned := clearNans popped.1
  (popped.2.foldl (fun t kv => addColumn t kv.1 kv.2) cleaned,
    !dfEmpty cleaned)

/-- `HMA.model_tables` (lines 307–328): process the augmented tables whose
name is not a key of `parent_map`.  Modelled from the spec ("Roots = tables
with no parent entry"), `parent_map` has an entry exactly for each table with
at least one parent, so `parentMapKeys` lists the non-root tables.  Returns
the transformed table dict and, in order, the table names for which one model
was fitted. -/
def model_tables (parentMapKeys : List String) (allFks : String → List String) :
    List (String × DFrame) → List (String × DFrame) × List String
  | [] => ([], [])
  | kv :: rest =>
    let tail := model_tables parentMapKeys allFks rest
    if kv.1 ∈ parentMapKeys then (kv :: tail.1, tail.2)
    else
      ((kv.1, (modelTable (allFks kv.1) kv.2).1) :: tail.1,
        if (modelTable (allFks kv.1) kv.2).2 then kv.1 :: tail.2 else tail.2)

/-- **C4 counterexample**: in a two-table schema with root `P` and child `C`
(`parent_map = {"C": ["P"]}`), where the augmented child `C` has one row and a
data column, the modeling phase fits only `P`: the root-reachable non-root
table `C` gets no model, contradicting the claim that every root-reachable
table with at least one row is fitted. -/
theorem model_tables_fit_roots_only :
    (model_tables ["C"] (fun n => if n = "C" then ["pid"] else [])
        [("P", DFrame.mk ["id"] [[none]]),
          ("C", DFrame.mk ["pid", "x"] [[none, none]])]).2 = ["P"] ∧
    (DFrame.mk ["pid", "x"] [[(none : Option ℚ), none]]).rows.length = 1 := by
  constructor
  · rfl
  · rfl

theorem modelTable_snd (fks : List String) (df : DFrame) :
    (modelTable fks df).2 = !dfEmpty (clearNans (pop_foreign_keys fks df).1) :=
  rfl

/-- **C4 amended**: the table-modeling phase fits exactly one statistical
model for every augmented root table (table absent from `parent_map`) whose
frame, after stripping its foreign-key columns and applying the null-fill
rule, is nonempty; non-root augmented tables are left untouched and get no
model, and a root table whose stripped frame is empty is skipped.  Every
processed root table's output frame is the stripped, null-filled frame with
the foreign-key columns restored (`modelTable`). -/
theorem model_tables_characterization (parentMapKeys : List String)
    (allFks : String → List String) (augmented : List (String × DFrame)) :
    (model_tables parentMapKeys allFks augmented).2
      = (augmented.filter (fun kv =>
          !decide (kv.1 ∈ parentMapKeys) &&
            !dfEmpty (clearNans (pop_foreign_keys (allFks kv.1) kv.2).1))).map
          Prod.fst ∧
    (model_tables parentMapKeys allFks augmented).1
      = augmented.map (fun kv =>
          if kv.1 ∈ parentMapKeys then kv
          else (kv.1, (modelTable (allFks kv.1) kv.2).1)) := by
  induction augmented with
  | nil => exact ⟨rfl, rfl⟩
  | cons kv rest ih =>
    rw [model_tables]
    by_cases hm : kv.1 ∈ parentMapKeys
    · rw [if_pos hm, List.filter_cons, List.map_cons, if_pos hm]
      rw [if_neg (by simp [hm])]
      exact ⟨ih.1, congrArg (List.cons kv) ih.2⟩
    · rw [if_neg hm, List.filter_cons, List.map_cons, if_neg hm]
      constructor
      · rw [modelTable_snd]
        by_cases hf : dfEmpty (clearNans (pop_foreign_keys (allFks kv.1) kv.2).1)
        · rw [hf]
          simpa using ih.1
        · rw [Bool.not_eq_true] at hf
          rw [hf]
          simpa [hm] using congrArg (List.cons kv.1) ih.1
      · exact congrArg _ ih.2

/-! ## The augmentation pass and its frame effect:
`HMA.get_extended_table` / `HMA.get_extended_tables` (hma.py lines 232–284)

Python frames are mutable objects; to state that the caller's input is left
unmodified, frames live on an explicit heap of objects and the pass threads
the addresses the source's references denote. -/

/-- The heap of frame objects: an address is an index.  Reading an
unallocated address yields an empty frame (the source cannot hold a dangling
reference). -/
abbrev Heap := List DFrame

def heapGet (h : Heap) (a : ℕ) : DFrame := h.getD a ⟨[], []⟩

def heapSet (h : Heap) (a : ℕ) (f : DFrame) : Heap := h.set a f

/-- Allocate a fresh frame object. -/
def alloc (h : Heap) (f : DFrame) : Heap × ℕ := (h ++ [f], h.length)

/-- Python dict assignment `d[k] = v`: replace the entry or append a new
one. -/
def assocSet {β : Type} : List (String × β) → String → β → List (String × β)
  | [], k, v => [(k, v)]
  | kv :: rest, k, v =>
    if kv.1 = k then (k, v) :: rest else kv :: assocSet rest k v

/-- Address a dict entry points to (a missing key would raise `KeyError` in
the source; modelled as address 0). -/
def dictAddr (d : List (String × ℕ)) (k : String) : ℕ :=
  (List.lookup k d).getD 0

/-- The mutable state of one augmentation pass: the heap of frame objects,
the `augmented_data` dict (name → frame address), and the `self` attributes
the pass updates (`_augmented_tables`, `_table_sizes`, `_max_child_rows`,
`_learned_relationships`). -/
structure HState where
  heap : Heap
  dict : List (String × ℕ)
  augmentedTables : List String
  tableSizes : List (String × ℕ)
  maxChildRows : List (String × ℚ)
  learnedRelationships : ℕ

/-- An extension frame with an explicit index (the foreign-key values). -/
structure IFrame where
  idx : List (Option ℚ)
  cols : List String
  rows : List (List (Option ℚ))

/-- `pd.DataFrame(extension_rows, index=index)`: columns are the union of the
record keys in order of first appearance; keys missing from a record are
NaN. -/
def extensionToIFrame (ext : List (Option ℚ × List (String × Option ℚ))) :
    IFrame :=
  let cols := uniqueFirst (ext.flatMap (fun e => e.2.map Prod.fst))
  { idx := ext.map Prod.fst, cols := cols,
    rows := ext.map (fun e => cols.map (fun c => (List.lookup c e.2).getD none)) }

/-- Lines 255–258: cast each extension column to float (cells are already
numeric in this model) and replace an all-NaN column by the `1e-6`
sentinel. -/
def fillAllNullColumns (fr : IFrame) : IFrame :=
  { fr with
    rows := (List.range fr.cols.length).foldl (fun rows j =>
      if (columnOf rows j).all (fun c => decide (c = none)) then
        rows.map (fun r => r.set j (some (1/1000000)))
      else rows) fr.rows }

/-- Line 263: `table.merge(extension, how='left', right_index=True,
left_index=True)` — the processed parent frame carries a default integer
index, so parent row `i` joins the extension row whose index (foreign-key)
value is `i`; unmatched rows get NaN extension cells.  (The extension index
comes from `unique()`, hence is duplicate-free.) -/
def mergeExtension (t : DFrame) (fr : IFrame) : DFrame :=
  { cols := t.cols ++ fr.cols,
    rows := (List.range t.rows.length).map (fun i =>
      t.rows.getD i [] ++
        (match fr.idx.indexOf? (some ((i : ℕ) : ℚ)) with
        | some j => fr.rows.getD j (fr.cols.map (fun _ => none))
        | none => fr.cols.map (fun _ => none))) }

/-- Lines 265–266: fill the merged num_rows column's NaNs with 0. -/
def fillColumnZero (df : DFrame) (c : String) : DFrame :=
  match df.cols.indexOf? c with
  | some j =>
    { df with
      rows := df.rows.map (fun r => r.set j (some ((r.getD j none).getD 0))) }
  | none => df

/-- Line 267: the maximum of the (already zero-filled) num_rows column. -/
def columnMax (df : DFrame) (c : String) : ℚ :=
  match df.cols.indexOf? c with
  | some j => listMax ((columnOf df.rows j).filterMap id)
  | none => 0

/-- The `for foreign_key in foreign_keys` loop of `HMA.get_extended_table`
(lines 253–270): compute the extension from a copy of the (already
augmented) child frame, sentinel-fill all-null extension columns, left-join
onto the parent's current frame — pandas `merge` builds a new frame object,
modelled by a fresh allocation — zero-fill the merged num_rows column,
record its maximum, store the new frame in the dict
(`tables[table_name] = table`, line 269) and count the relationship.
`ta` is the address of the local variable `table`'s current object. -/
def augmentFKs (fkAll : String → List String) (name child : String)
    (cFrame : DFrame) : List String → HState × ℕ → HState × ℕ
  | [], acc => acc
  | fk :: rest, (st, ta) =>
    let ext := get_extended_columns copulaFit child fk (fkAll child) cFrame
    let ifr := fillAllNullColumns (extensionToIFrame ext)
    let numRowsKey := extPfx child fk ++ "num_rows"
    let merged :=
      fillColumnZero (mergeExtension (heapGet st.heap ta) ifr) numRowsKey
    augmentFKs fkAll name child cFrame rest
      ({ st with
          heap := (alloc st.heap merged).1,
          dict := assocSet st.dict name (alloc st.heap merged).2,
          maxChildRows :=
            assocSet st.maxChildRows numRowsKey (columnMax merged numRowsKey),
          learnedRelationships := st.learnedRelationships + 1 },
        (alloc st.heap merged).2)

/-- The `for child_name in child_map` loop of `HMA.get_extended_table`
(lines 246–270), parameterised by the recursive call `rec` used on a child
not yet augmented (the recursion's return value is the frame object the
child's dict slot holds, so the child frame is read back from the dict). -/
def augmentChildren (rec : String → HState → HState)
    (fkMap : String → String → List String) (fkAll : String → List String)
    (name : String) : List String → HState × ℕ → HState × ℕ
  | [], acc => acc
  | child :: rest, (st, ta) =>
    let st' := if child ∈ st.augmentedTables then st else rec child st
    let cFrame := heapGet st'.heap (dictAddr st'.dict child)
    augmentChildren rec fkMap fkAll name rest
      (augmentFKs fkAll name child cFrame (fkMap name child) (st', ta))

/-- `HMA.get_extended_table` (lines 232–274): record the table size, augment
through every child and foreign key, mark the table as augmented, and apply
the in-place null fill (`self._clear_nans(table)`, line 273) to the frame
object the local `table` variable holds at that point.  `fuel` bounds the
recursion depth: the schema graph is acyclic, so any fuel at or above the
table count behaves like the source. -/
def get_extended_table_h (childMap : String → List String)
    (fkMap : String → String → List String) (fkAll : String → List String) :
    ℕ → String → HState → HState
  | 0, _, st => st
  | fuel + 1, name, st =>
    let a := dictAddr st.dict name
    let st₁ := { st with
      tableSizes := assocSet st.tableSizes name (heapGet st.heap a).rows.length }
    let res := augmentChildren (get_extended_table_h childMap fkMap fkAll fuel)
      fkMap fkAll name (childMap name) (st₁, a)
    let st₂ := { res.1 with augmentedTables := res.1.augmentedTables ++ [name] }
    { st₂ with heap := heapSet st₂.heap res.2 (clearNans (heapGet st₂.heap res.2)) }

/-- `deepcopy(processed_data)`: allocate a fresh copy of every frame, giving
a dict with new addresses. -/
def deepcopyDict (h : Heap) : List (String × ℕ) → Heap × List (String × ℕ)
  | [] => (h, [])
  | kv :: rest =>
    let res := deepcopyDict (alloc h (heapGet h kv.2)).1 rest
    (res.1, (kv.1, (alloc h (heapGet h kv.2)).2) :: res.2)

/-- `HMA.get_extended_tables` (lines 276–284): deep-copy the processed data,
reset `_augmented_tables` and `_learned_relationships`, and augment every
root table.  Modelled from the spec ("Roots = tables with no parent entry"),
`roots` decides whether `self.parent_map[table_name]` is empty. -/
def get_extended_tables_h (childMap : String → List String)
    (fkMap : String → String → List String) (fkAll : String → List String)
    (roots : String → Bool) (fuel : ℕ) (processed : List (String × ℕ))
    (h : Heap) : HState :=
  let cp := deepcopyDict h processed
  (processed.filter (fun kv => roots kv.1)).foldl
    (fun st kv => get_extended_table_h childMap fkMap fkAll fuel kv.1 st)
    { heap := cp.1, dict := cp.2, augmentedTables := [],
      tableSizes := [], maxChildRows := [], learnedRelationships := 0 }

theorem lookup_assocSet_self {β : Type} (d : List (String × β)) (k : String)
    (v : β) : (assocSet d k v).lookup k = some v := by
  induction d with
  | nil => simp [assocSet]
  | cons kv rest ih =>
    obtain ⟨k₁, v₁⟩ := kv
    rw [assocSet]
    by_cases h : k₁ = k
    · rw [if_pos h]
      simp
    · rw [if_neg h, List.lookup_cons,
        show (k == ((k₁, v₁) : String × β).1) = false from
          beq_eq_false_iff_ne.mpr (fun hc => h hc.symm)]
      exact ih

theorem lookup_assocSet_ne {β : Type} (d : List (String × β)) (k nm : String)
    (v : β) (h : nm ≠ k) : (assocSet d k v).lookup nm = d.lookup nm := by
  induction d with
  | nil =>
    rw [assocSet, List.lookup_cons,
      show (nm == ((k, v) : String × β).1) = false from
        beq_eq_false_iff_ne.mpr h]
  | cons kv rest ih =>
    obtain ⟨k₁, v₁⟩ := kv
    rw [assocSet]
    by_cases hk : k₁ = k
    · rw [if_pos hk, List.lookup_cons, List.lookup_cons,
        show (nm == ((k, v) : String × β).1) = false from
          beq_eq_false_iff_ne.mpr h,
        show (nm == ((k₁, v₁) : String × β).1) = false from
          beq_eq_false_iff_ne.mpr (fun hc => h (hc.trans hk))]
    · rw [if_neg hk, List.lookup_cons, List.lookup_cons]
      by_cases hnm : nm = k₁
      · rw [show (nm == ((k₁, v₁) : String × β).1) = true from
          beq_iff_eq.mpr hnm]
      · rw [show (nm == ((k₁, v₁) : String × β).1) = false from
          beq_eq_false_iff_ne.mpr hnm]
        exact ih

theorem dictAddr_assocSet_self (d : List (String × ℕ)) (k : String) (v : ℕ) :
    dictAddr (assocSet d k v) k = v := by
  unfold dictAddr
  rw [lookup_assocSet_self]
  rfl

theorem dictAddr_assocSet_ne (d : List (String × ℕ)) (k nm : String) (v : ℕ)
    (h : nm ≠ k) : dictAddr (assocSet d k v) nm = dictAddr d nm := by
  unfold dictAddr
  rw [lookup_assocSet_ne _ _ _ _ h]

/-- Invariant of one augmentation pass over base heap size `n₀`: the heap is
at least as large as the caller's, and every schema table's dict slot points
into the pass's own allocations (at or above `n₀`). -/
structure PassInv (n₀ : ℕ) (names : List String) (st : HState) : Prop where
  hlen : n₀ ≤ st.heap.length
  hkeys : ∀ nm ∈ names, n₀ ≤ dictAddr st.dict nm

/-- What every pass step preserves: the heap only grows and the heap prefix
below `n₀` — the caller's objects — is untouched. -/
def StepOk (n₀ : ℕ) (st st' : HState) : Prop :=
  st.heap.length ≤ st'.heap.length ∧
  ∀ i, i < n₀ → st'.heap[i]? = st.heap[i]?

theorem stepOk_refl {n₀ : ℕ} (a : HState) : StepOk n₀ a a :=
  ⟨le_refl _, fun _ _ => rfl⟩

theorem stepOk_trans {n₀ : ℕ} {a b c : HState} (h1 : StepOk n₀ a b)
    (h2 : StepOk n₀ b c) : StepOk n₀ a c :=
  ⟨le_trans h1.1 h2.1, fun i hi => (h2.2 i hi).trans (h1.2 i hi)⟩

theorem augmentFKs_ok (n₀ : ℕ) (names : List String)
    (fkAll : String → List String) (name child : String) (cFrame : DFrame) :
    ∀ (fks : List String) (st : HState) (ta : ℕ),
      PassInv n₀ names st → n₀ ≤ ta →
      PassInv n₀ names (augmentFKs fkAll name child cFrame fks (st, ta)).1 ∧
      n₀ ≤ (augmentFKs fkAll name child cFrame fks (st, ta)).2 ∧
      StepOk n₀ st (augmentFKs fkAll name child cFrame fks (st, ta)).1 := by
  intro fks
  induction fks with
  | nil => intro st ta hinv hta; exact ⟨hinv, hta, stepOk_refl st⟩
  | cons fk rest ih =>
    intro st ta hinv hta
    rw [augmentFKs]
    set merged := fillColumnZero
      (mergeExtension (heapGet st.heap ta)
        (fillAllNullColumns (extensionToIFrame
          (get_extended_columns copulaFit child fk (fkAll child) cFrame))))
      (extPfx child fk ++ "num_rows") with hmerged
    set st' : HState := { st with
        heap := st.heap ++ [merged],
        dict := assocSet st.dict name st.heap.length,
        maxChildRows := assocSet st.maxChildRows (extPfx child fk ++ "num_rows")
          (columnMax merged (extPfx child fk ++ "num_rows")),
        learnedRelationships := st.learnedRelationships + 1 } with hst'
    have hinv' : PassInv n₀ names st' := by
      constructor
      · show n₀ ≤ (st.heap ++ [merged]).length
        rw [List.length_append]
        exact le_trans hinv.hlen (Nat.le_add_right _ _)
      · intro nm hnm
        show n₀ ≤ dictAddr (assocSet st.dict name st.heap.length) nm
        by_cases hn : nm = name
        · subst hn
          rw [dictAddr_assocSet_self]
          exact hinv.hlen
        · rw [dictAddr_assocSet_ne _ _ _ _ hn]
          exact hinv.hkeys nm hnm
    have hstep' : StepOk n₀ st st' := by
      constructor
      · show st.heap.length ≤ (st.heap ++ [merged]).length
        rw [List.length_append]
        exact Nat.le_add_right _ _
      · intro i hi
        show (st.heap ++ [merged])[i]? = st.heap[i]?
        exact List.getElem?_append_left (lt_of_lt_of_le hi hinv.hlen)
    have hta' : n₀ ≤ st.heap.length := hinv.hlen
    have hrest := ih st' st.heap.length hinv' hta'
    exact ⟨hrest.1, hrest.2.1, stepOk_trans hstep' hrest.2.2⟩

theorem augmentChildren_ok (n₀ : ℕ) (names : List String)
    (rec : String → HState → HState)
    (fkMap : String → String → List String) (fkAll : String → List String)
    (name : String)
    (hrec : ∀ nm st, nm ∈ names → PassInv n₀ names st →
      PassInv n₀ names (rec nm st) ∧ StepOk n₀ st (rec nm st)) :
    ∀ (children : List String) (st : HState) (ta : ℕ),
      (∀ c ∈ children, c ∈ names) → PassInv n₀ names st → n₀ ≤ ta →
      PassInv n₀ names
        (augmentChildren rec fkMap fkAll name children (st, ta)).1 ∧
      n₀ ≤ (augmentChildren rec fkMap fkAll name children (st, ta)).2 ∧
      StepOk n₀ st (augmentChildren rec fkMap fkAll name children (st, ta)).1 := by
  intro children
  induction children with
  | nil => intro st ta _ hinv hta; exact ⟨hinv, hta, stepOk_refl st⟩
  | cons child rest ih =>
    intro st ta hsub hinv hta
    rw [augmentChildren]
    have hst' : PassInv n₀ names
        (if child ∈ st.augmentedTables then st else rec child st) ∧
        StepOk n₀ st (if child ∈ st.augmentedTables then st else rec child st) := by
      by_cases hmem : child ∈ st.augmentedTables
      · rw [if_pos hmem]
        exact ⟨hinv, stepOk_refl st⟩
      · rw [if_neg hmem]
        exact hrec child st (hsub child (List.mem_cons_self child rest)) hinv
    have hfk := augmentFKs_ok n₀ names fkAll name child
      (heapGet (if child ∈ st.augmentedTables then st else rec child st).heap
        (dictAddr (if child ∈ st.augmentedTables then st else rec child st).dict
          child))
      (fkMap name child) _ ta hst'.1 hta
    have hrest := ih _ _ (fun c hc => hsub c (List.mem_cons_of_mem child hc))
      hfk.1 hfk.2.1
    exact ⟨hrest.1, hrest.2.1,
      stepOk_trans hst'.2 (stepOk_trans hfk.2.2 hrest.2.2)⟩

theorem get_extended_table_h_ok (n₀ : ℕ) (names : List String)
    (childMap : String → List String) (fkMap : String → String → List String)
    (fkAll : String → List String)
    (hclosed : ∀ nm c, c ∈ childMap nm → c ∈ names) :
    ∀ (fuel : ℕ) (name : String) (st : HState), name ∈ names →
      PassInv n₀ names st →
      PassInv n₀ names (get_extended_table_h childMap fkMap fkAll fuel name st) ∧
      StepOk n₀ st (get_extended_table_h childMap fkMap fkAll fuel name st) := by
  intro fuel
  induction fuel with
  | zero => intro name st _ hinv; exact ⟨hinv, stepOk_refl st⟩
  | succ fuel ih =>
    intro name st hname hinv
    rw [get_extended_table_h]
    set st₁ : HState := { st with
      tableSizes := assocSet st.tableSizes name
        (heapGet st.heap (dictAddr st.dict name)).rows.length } with hst₁
    have hinv₁ : PassInv n₀ names st₁ := ⟨hinv.hlen, hinv.hkeys⟩
    have hta : n₀ ≤ dictAddr st.dict name := hinv.hkeys name hname
    have hch := augmentChildren_ok n₀ names
      (get_extended_table_h childMap fkMap fkAll fuel) fkMap fkAll name
      (fun nm st' hnm hinv' => ih nm st' hnm hinv') (childMap name) st₁
      (dictAddr st.dict name) (fun c hc => hclosed name c hc) hinv₁ hta
    set res := augmentChildren (get_extended_table_h childMap fkMap fkAll fuel)
      fkMap fkAll name (childMap name) (st₁, dictAddr st.dict name) with hres
    constructor
    · constructor
      · show n₀ ≤ (heapSet res.1.heap res.2 _).length
        rw [heapSet, List.length_set]
        exact hch.1.hlen
      · intro nm hnm
        exact hch.1.hkeys nm hnm
    · refine stepOk_trans (stepOk_refl st₁ : StepOk n₀ st st₁) ?_
      refine stepOk_trans hch.2.2 ?_
      constructor
      · show res.1.heap.length ≤ (heapSet res.1.heap res.2 _).length
        rw [heapSet, List.length_set]
      · intro i hi
        show (heapSet res.1.heap res.2 _)[i]? = res.1.heap[i]?
        rw [heapSet]
        exact List.getElem?_set_ne
          (Nat.ne_of_gt (lt_of_lt_of_le hi hch.2.1))

theorem deepcopyDict_heap :
    ∀ (l : List (String × ℕ)) (h : Heap),
      ∃ ext, (deepcopyDict h l).1 = h ++ ext := by
  intro l
  induction l with
  | nil => intro h; exact ⟨[], (List.append_nil h).symm⟩
  | cons kv rest ih =>
    intro h
    rw [deepcopyDict]
    obtain ⟨ext, hext⟩ := ih (alloc h (heapGet h kv.2)).1
    refine ⟨[heapGet h kv.2] ++ ext, ?_⟩
    rw [hext]
    show (h ++ [heapGet h kv.2]) ++ ext = _
    rw [List.append_assoc]

theorem deepcopyDict_addr :
    ∀ (l : List (String × ℕ)) (h : Heap) (nm : String),
      nm ∈ l.map Prod.fst → h.length ≤ dictAddr (deepcopyDict h l).2 nm := by
  intro l
  induction l with
  | nil => intro h nm hmem; simp at hmem
  | cons kv rest ih =>
    intro h nm hmem
    rw [deepcopyDict]
    show h.length ≤ dictAddr ((kv.1, h.length)
      :: (deepcopyDict (alloc h (heapGet h kv.2)).1 rest).2) nm
    unfold dictAddr
    rw [List.lookup_cons]
    by_cases hn : nm = kv.1
    · rw [show (nm == ((kv.1, h.length) : String × ℕ).1) = true from
        beq_iff_eq.mpr hn]
      exact le_refl _
    · rw [show (nm == ((kv.1, h.length) : String × ℕ).1) = false from
        beq_eq_false_iff_ne.mpr hn]
      have hmem' : nm ∈ rest.map Prod.fst := by
        rcases List.mem_cons.mp hmem with h1 | h1
        · exact absurd h1 hn
        · exact h1
      have := ih (alloc h (heapGet h kv.2)).1 nm hmem'
      refine le_trans ?_ this
      show h.length ≤ (h ++ [heapGet h kv.2]).length
      rw [List.length_append]
      exact Nat.le_add_right _ _

/-- **C10**: `get_extended_tables` leaves its input unmodified — all merging
and null filling happens on frames of the deep copy (or freshly allocated
merge results), so after the pass every frame object the caller's processed
dict references is unchanged on the heap.  Requires the input references to
be live (addresses inside the heap) and the schema's child map to mention
only known tables, as a processed-data dict missing a schema table would make
the source raise `KeyError` before touching anything. -/
theorem get_extended_tables_preserves_input (childMap : String → List String)
    (fkMap : String → String → List String) (fkAll : String → List String)
    (roots : String → Bool) (fuel : ℕ) (processed : List (String × ℕ))
    (h : Heap)
    (hvalid : ∀ kv ∈ processed, kv.2 < h.length)
    (hclosed : ∀ nm c, c ∈ childMap nm → c ∈ processed.map Prod.fst) :
    ∀ kv ∈ processed,
      (get_extended_tables_h childMap fkMap fkAll roots fuel processed
          h).heap[kv.2]?
        = h[kv.2]? := by
  intro kv hkv
  unfold get_extended_tables_h
  set st₀ : HState := HState.mk (deepcopyDict h processed).1
    (deepcopyDict h processed).2 [] [] [] 0 with hst₀
  have hinv₀ : PassInv h.length (processed.map Prod.fst) st₀ := by
    constructor
    · show h.length ≤ (deepcopyDict h processed).1.length
      obtain ⟨ext, hext⟩ := deepcopyDict_heap processed h
      rw [hext, List.length_append]
      exact Nat.le_add_right _ _
    · intro nm hnm
      exact deepcopyDict_addr processed h nm hnm
  have hfold : ∀ (l : List (String × ℕ)) (st : HState),
      PassInv h.length (processed.map Prod.fst) st →
      (∀ kv' ∈ l, kv'.1 ∈ processed.map Prod.fst) →
      PassInv h.length (processed.map Prod.fst)
        (l.foldl (fun st kv' =>
          get_extended_table_h childMap fkMap fkAll fuel kv'.1 st) st) ∧
      StepOk h.length st
        (l.foldl (fun st kv' =>
          get_extended_table_h childMap fkMap fkAll fuel kv'.1 st) st) := by
    intro l
    induction l with
    | nil => intro st hinv _; exact ⟨hinv, stepOk_refl st⟩
    | cons kv' rest ihl =>
      intro st hinv hsub
      rw [List.foldl_cons]
      have h1 := get_extended_table_h_ok h.length (processed.map Prod.fst)
        childMap fkMap fkAll hclosed fuel kv'.1 st
        (hsub kv' (List.mem_cons_self kv' rest)) hinv
      have h2 := ihl _ h1.1 (fun kv'' hk => hsub kv'' (List.mem_cons_of_mem kv' hk))
      exact ⟨h2.1, stepOk_trans h1.2 h2.2⟩
  have hmain := hfold (processed.filter (fun kv' => roots kv'.1)) st₀ hinv₀
    (fun kv' hk => List.mem_map_of_mem Prod.fst (List.mem_of_mem_filter hk))
  have hlt : kv.2 < h.length := hvalid kv hkv
  rw [hmain.2.2 kv.2 hlt]
  show (deepcopyDict h processed).1[kv.2]? = h[kv.2]?
  obtain ⟨ext, hext⟩ := deepcopyDict_heap processed h
  rw [hext]
  exact List.getElem?_append_left hlt

/-- Witness for `get_extended_tables_preserves_input`: a one-table heap whose
single processed frame survives the pass unchanged. -/
theorem get_extended_tables_preserves_input_witness :
    (get_extended_tables_h (fun _ => []) (fun _ _ => []) (fun _ => [])
        (fun _ => true) 1 [("t", 0)] [DFrame.mk ["a"] [[some 1]]]).heap[0]?
      = ([DFrame.mk ["a"] [[some 1]]] : Heap)[0]? :=
  get_extended_tables_preserves_input (fun _ => []) (fun _ _ => [])
    (fun _ => []) (fun _ => true) 1 [("t", 0)] [DFrame.mk ["a"] [[some 1]]]
    (by intro kv hkv; simp at hkv; simp [hkv])
    (by intro nm c hc; simp at hc)
    ("t", 0) (List.mem_cons_self _ _)

end HMA
